import Mathlib

/-!
Verification of the release-search pipeline of search_releases.py
(OpenShift Day 2 Operator search tool).

The Python source works over a pandas DataFrame; here a table is a list of
Record values (one per row).  Cells that pandas may hold as NaN are modelled
with Option.  Dates are modelled as natural numbers y*10000 + m*100 + d, so
that Nat order coincides with chronological order for valid dates.

Python str.contains(re.escape(term), case=False, na=False) is modelled by the
literal case-insensitive containment test strContainsCI; the regex layer
(pattern compilation of the escaped term, and the search it performs) is
modelled separately by reEscape / parseRx / rxSearch, and the theorem for
claim C8 shows the two agree and that compiling an escaped term never fails.
-/

namespace SearchReleases

/-- One row of the release table (the CSV loaded by load_csv_data).
Columns BU, Product, Release, Release shortname, Release ID, GA name,
GA date, Link, Maintainers.  GA date and Maintainers may be missing (NaN). -/
structure Record where
  bu : String
  product : String
  release : String
  releaseShortname : String
  releaseId : String
  gaName : String
  gaDate : Option String
  link : String
  maintainers : Option String
  deriving DecidableEq, Repr

/-- One normalized search item produced by load_search_items:
operator name, mapped product (may be empty), release-name hint (may be empty). -/
structure SearchItem where
  operator : String
  product : String
  releaseHint : String
  deriving DecidableEq, Repr

/- ---------------------------------------------------------------------
   Literal case-insensitive substring containment
   --------------------------------------------------------------------- -/

/-- Decidable prefix test on character lists. -/
def isPfx : List Char → List Char → Bool
  | [], _ => true
  | _ :: _, [] => false
  | p :: ps, h :: hs => if p = h then isPfx ps hs else false

/-- Containment of the pattern as a contiguous sublist of the haystack. -/
def containsSub (hay pat : List Char) : Bool :=
  if isPfx pat hay then true
  else
    match hay with
    | [] => false
    | _ :: t => containsSub t pat

/-- Case-insensitive literal substring test: the semantics of Python
str.contains(re.escape(term), case=False) on a string cell. -/
def strContainsCI (hay pat : String) : Bool :=
  containsSub (hay.data.map Char.toLower) (pat.data.map Char.toLower)

/- ---------------------------------------------------------------------
   Model of the regex layer: re.escape plus pattern compilation/search
   --------------------------------------------------------------------- -/

/-- The characters Python re.escape prefixes with a backslash
(the special set of the re module). -/
def reSpecial : List Char :=
  ['(', ')', '[', ']', '\x7b', '\x7d', '?', '*', '+', '-', '|', '^', '$',
   '\\', '.', '&', '~', '#', ' ', '\t', '\n', '\r', '\x0b', '\x0c']

/-- Python re.escape: backslash-escape every special character. -/
def reEscape (s : String) : String :=
  ⟨s.data.foldr (fun c acc => if c ∈ reSpecial then '\\' :: c :: acc else c :: acc) []⟩

/-- A compiled pattern atom of the modelled regex fragment. -/
inductive RTok where
  | lit (c : Char)
  | anyChar
  deriving DecidableEq, Repr

/-- Pattern-compilation errors of the modelled regex fragment. -/
inductive RErr where
  | badEscape
  | unsupported
  deriving DecidableEq, Repr

/-- Compilation of a pattern string, restricted to the fragment this program
can produce: backslash escapes, the dot wildcard and plain literal
characters.  A trailing backslash or an escaped alphanumeric (a character
class in Python) is an error, and any other unescaped metacharacter
construct is rejected as outside the fragment. -/
def parseRx : List Char → Except RErr (List RTok)
  | [] => .ok []
  | c :: rest =>
    if c = '\\' then
      match rest with
      | [] => .error .badEscape
      | c2 :: rest2 =>
        if c2.isAlphanum then .error .badEscape
        else (parseRx rest2).map (fun ts => RTok.lit c2 :: ts)
    else if c = '.' then (parseRx rest).map (fun ts => RTok.anyChar :: ts)
    else if c ∈ reSpecial then .error .unsupported
    else (parseRx rest).map (fun ts => RTok.lit c :: ts)

/-- One compiled atom against one character, case-insensitively
(re.IGNORECASE); the dot does not match a newline. -/
def tokMatches (t : RTok) (c : Char) : Bool :=
  match t with
  | .lit l => l.toLower = c.toLower
  | .anyChar => c ≠ '\n'

/-- Match the whole token list against a prefix of the haystack. -/
def rxMatchHere : List RTok → List Char → Bool
  | [], _ => true
  | _ :: _, [] => false
  | t :: ts, c :: cs => tokMatches t c && rxMatchHere ts cs

/-- Search: does the pattern match at any position of the haystack? -/
def rxSearch (ts : List RTok) (hay : List Char) : Bool :=
  if rxMatchHere ts hay then true
  else
    match hay with
    | [] => false
    | _ :: rest => rxSearch ts rest

/-- The full regex-layer semantics of str.contains(pat, case=False):
compile the pattern, then search the cell; compilation may fail. -/
def containsRegexCI (hay pat : String) : Except RErr Bool :=
  (parseRx pat.data).map (fun ts => rxSearch ts hay.data)

/- ---------------------------------------------------------------------
   Matching engine: search_by_product (lines 169-188)
   --------------------------------------------------------------------- -/

/-- Remove duplicate rows, keeping the first occurrence: the semantics of
pandas drop_duplicates on a concatenated frame. -/
def dedupKeepFirst {α : Type} [DecidableEq α] : List α → List α
  | [] => []
  | a :: t => a :: (dedupKeepFirst t).filter (fun x => decide (x ≠ a))

/-- The release-column search of search_by_product (line 175):
rows whose Release contains the release name, case-insensitively. -/
def searchRelease (df : List Record) (release_name : String) : List Record :=
  df.filter (fun r => strContainsCI r.release release_name)

/-- The fixed column list scanned by the generic search (line 180). -/
def searchColumns : List (Record → String) :=
  [Record.product, Record.release, Record.releaseShortname, Record.releaseId,
   Record.gaName]

/-- The generic multi-column scan of search_by_product (lines 180-187):
for each column, select the rows containing the product name, concatenate
with the accumulated matches and drop duplicate rows. -/
def genericScan (df : List Record) (product_name : String) : List Record :=
  searchColumns.foldl
    (fun acc col =>
      dedupKeepFirst (acc ++ df.filter (fun r => strContainsCI (col r) product_name)))
    []

/-- search_by_product (lines 169-188): empty product yields nothing; a
non-empty release name whose release-column search yields at least one row
short-circuits; otherwise the generic multi-column scan runs. -/
def search_by_product (df : List Record) (product_name : String)
    (release_name : String) : List Record :=
  if product_name = "" then []
  else if release_name ≠ "" ∧ searchRelease df release_name ≠ [] then
    searchRelease df release_name
  else genericScan df product_name

/- ---------------------------------------------------------------------
   Dates: pd.to_datetime over the GA date column (lines 196 and 277)
   --------------------------------------------------------------------- -/

/-- Digits of a decimal numeral to its value; none when empty or non-digit. -/
def digitsToNat (cs : List Char) : Option Nat :=
  if cs = [] then none
  else if cs.all Char.isDigit then
    some (cs.foldl (fun n c => n * 10 + (c.toNat - 48)) 0)
  else none

/-- Split a character list on the dash separator. -/
def splitOnDash : List Char → List (List Char)
  | [] => [[]]
  | c :: t =>
    let r := splitOnDash t
    if c = '-' then [] :: r
    else
      match r with
      | [] => [[c]]
      | h :: rest => (c :: h) :: rest

/-- Parse an ISO date string YYYY-MM-DD to y*10000 + m*100 + d; none when
the string is not a date pandas can parse in this format. -/
def parseDate (s : String) : Option Nat :=
  match splitOnDash s.data with
  | [y, m, d] =>
    match digitsToNat y, digitsToNat m, digitsToNat d with
    | some yn, some mn, some dn =>
      if y.length = 4 ∧ 1 ≤ mn ∧ mn ≤ 12 ∧ 1 ≤ dn ∧ dn ≤ 31 then
        some (yn * 10000 + mn * 100 + dn)
      else none
    | _, _, _ => none
  | _ => none

/-- pd.to_datetime over the GA date column with the default errors policy:
a missing cell becomes NaT (none); a present cell must parse, otherwise the
whole conversion raises, carrying the offending string. -/
def toDatetimeCol : List Record → Except String (List (Record × Option Nat))
  | [] => .ok []
  | r :: t =>
    match r.gaDate with
    | none =>
      match toDatetimeCol t with
      | .ok l => .ok ((r, none) :: l)
      | .error e => .error e
    | some s =>
      match parseDate s with
      | some d =>
        match toDatetimeCol t with
        | .ok l => .ok ((r, some d) :: l)
        | .error e => .error e
      | none => .error s

/-- The strict-future test of line 197 on a converted GA date: a present
date strictly after today passes; NaT compares false. -/
def isFutureDate (today : Nat) (d : Option Nat) : Bool :=
  match d with
  | some x => decide (today < x)
  | none => false

/-- The pure comparison step of filter_future_releases (line 197): keep rows
whose converted GA date is strictly after today. -/
def futureFilterDated (today : Nat) (dated : List (Record × Option Nat)) :
    List (Record × Option Nat) :=
  dated.filter (fun rd => isFutureDate today rd.2)

/-- filter_future_releases (lines 190-199): convert the GA date column
(which raises on an unparsable present value) and keep strictly future rows. -/
def filter_future_releases (today : Nat) (ms : List Record) :
    Except String (List (Record × Option Nat)) :=
  match toDatetimeCol ms with
  | .ok dated => .ok (futureFilterDated today dated)
  | .error e => .error e

/- ---------------------------------------------------------------------
   Version filter: filter_by_version (lines 201-209)
   --------------------------------------------------------------------- -/

/-- filter_by_version: when a version constraint exists for the product,
keep rows whose Release contains the target version, case-insensitively;
otherwise (no map, product absent, or empty matches) pass through. -/
def filter_by_version (ms : List Record) (product_name : String)
    (version_map : List (String × String)) : List Record :=
  if ms = [] ∨ version_map = [] then ms
  else
    match version_map.lookup product_name with
    | none => ms
    | some v => ms.filter (fun r => strContainsCI r.release v)

/- ---------------------------------------------------------------------
   Release deduplication: groupby Release, idxmin over GA date
   (lines 281 and 288)
   --------------------------------------------------------------------- -/

/-- Scan for the row with the minimal GA date, skipping NaT rows and keeping
the earlier row on ties: the semantics of idxmin, which returns the first
index attaining the minimum and ignores missing values. -/
def pickMinD (best : Record × Nat) :
    List (Record × Option Nat) → Record × Nat
  | [] => best
  | (_, none) :: t => pickMinD best t
  | (r, some d) :: t =>
    if d < best.2 then pickMinD (r, d) t else pickMinD best t

/-- idxmin over one groupby group: none when every GA date is missing
(pandas raises in that case). -/
def idxminGroup : List (Record × Option Nat) → Option (Record × Nat)
  | [] => none
  | (_, none) :: t => idxminGroup t
  | (r, some d) :: t => some (pickMinD (r, d) t)

/-- Lexicographic order on character lists, used for the ascending key order
of pandas groupby. -/
def charListLe : List Char → List Char → Bool
  | [], _ => true
  | _ :: _, [] => false
  | a :: as, b :: bs => if a = b then charListLe as bs else decide (a < b)

/-- String order for groupby keys. -/
def strLe (a b : String) : Bool := charListLe a.data b.data

/-- Insert into a sorted list (insertion sort step). -/
def insertBy {α : Type} (le : α → α → Bool) (a : α) : List α → List α
  | [] => [a]
  | b :: t => if le a b then a :: b :: t else b :: insertBy le a t

/-- Insertion sort by a boolean order. -/
def sortBy {α : Type} (le : α → α → Bool) : List α → List α
  | [] => []
  | a :: t => insertBy le a (sortBy le t)

/-- The distinct Release keys of a dated match set, in the ascending order
pandas groupby iterates them. -/
def sortedKeys (l : List (Record × Option Nat)) : List String :=
  sortBy strLe (dedupKeepFirst (l.map (fun rd => rd.1.release)))

/-- Effectful map over a list in the Except monad, specialised and spelled
out so that proofs can follow the recursion directly. -/
def mapExcept {α β : Type} (f : α → Except String β) :
    List α → Except String (List β)
  | [] => .ok []
  | a :: t =>
    match f a with
    | .ok b =>
      match mapExcept f t with
      | .ok bs => .ok (b :: bs)
      | .error e => .error e
    | .error e => .error e

/-- matches.loc[matches.groupby('Release')['GA date'].idxmin()]: one
representative per distinct Release, the first row attaining the earliest
GA date; raises when a group holds only missing dates. -/
def groupByReleaseMin (l : List (Record × Option Nat)) :
    Except String (List (Record × Option Nat)) :=
  mapExcept
    (fun k =>
      match idxminGroup (l.filter (fun rd => decide (rd.1.release = k))) with
      | some p => .ok (p.1, some p.2)
      | none => .error "attempt to get argmin of an all-NA group")
    (sortedKeys l)

/- ---------------------------------------------------------------------
   Grouping by product (lines 236-247) and the per-group pipeline
   --------------------------------------------------------------------- -/

/-- Append a pair to the (unique) group with the given product key. -/
def appendToGroup (p : String) (x : String × String) :
    List (String × List (String × String)) →
    List (String × List (String × String))
  | [] => []
  | g :: t => if g.1 = p then (g.1, g.2 ++ [x]) :: t else g :: appendToGroup p x t

/-- One step of the grouping loop: skip an unmapped item, append to an
existing product group, or open a new group at the end. -/
def addItem (gs : List (String × List (String × String))) (it : SearchItem) :
    List (String × List (String × String)) :=
  if it.product = "" then gs
  else if (gs.lookup it.product).isSome then
    appendToGroup it.product (it.operator, it.releaseHint) gs
  else gs ++ [(it.product, [(it.operator, it.releaseHint)])]

/-- The OrderedDict product_groups of lines 236-247: operators grouped by
product, insertion-ordered by first appearance of the product. -/
def productGroups (items : List SearchItem) :
    List (String × List (String × String)) :=
  items.foldl addItem []

/-- The per-product union of raw matches (lines 257-264): one engine run per
operator entry, concatenated and de-duplicated, skipping empty results. -/
def unionMatches (df : List Record) (product : String)
    (ops : List (String × String)) : List Record :=
  ops.foldl
    (fun acc pr =>
      let m := search_by_product df product pr.2
      if m = [] then acc else dedupKeepFirst (acc ++ m))
    []

/-- The per-group filter pipeline of lines 256-303, up to the classification
test of line 292.  An empty result list means the group is Unresolved; a
raised error aborts the whole run.  Version filter runs only when a version
map is present; the GA date conversion of line 277 may raise; the second
conversion inside filter_future_releases is the identity on the already
converted column, so the temporal stage is the pure filter futureFilterDated. -/
def processGroup (df : List Record) (vm : List (String × String))
    (showAll : Bool) (today : Nat) (product : String)
    (ops : List (String × String)) :
    Except String (List (Record × Option Nat)) :=
  let all := unionMatches df product ops
  if all = [] then .ok []
  else
    let m1 := if vm = [] then all else filter_by_version all product vm
    if m1 = [] then .ok []
    else
      match toDatetimeCol m1 with
      | .error e => .error e
      | .ok dated =>
        if showAll then groupByReleaseMin dated
        else
          let fut := futureFilterDated today dated
          if fut = [] then .ok [] else groupByReleaseMin fut

/- ---------------------------------------------------------------------
   Report aggregation: format_results_by_product (lines 217-408)
   --------------------------------------------------------------------- -/

/-- The accumulators of the group loop of lines 249-303. -/
structure Agg where
  productsWith : List (String × List String × List (Record × Option Nat))
  productsWithout : List (String × List String)
  opsWith : List String
  opsWithout : List String
  deriving DecidableEq, Repr

/-- The empty accumulators of lines 250-254. -/
def emptyAgg : Agg := ⟨[], [], [], []⟩

/-- One iteration of the group loop (lines 256-303): classify the group by
the emptiness of its filtered match set and extend the accumulators. -/
def stepGroup (df : List Record) (vm : List (String × String))
    (showAll : Bool) (today : Nat) (agg : Agg)
    (g : String × List (String × String)) : Except String Agg :=
  match processGroup df vm showAll today g.1 g.2 with
  | .error e => .error e
  | .ok fut =>
    let ops := g.2.map (fun x => x.1)
    if fut = [] then
      .ok { agg with
            productsWithout := agg.productsWithout ++ [(g.1, ops)],
            opsWithout := agg.opsWithout ++ ops }
    else
      .ok { agg with
            productsWith := agg.productsWith ++ [(g.1, ops, fut)],
            opsWith := agg.opsWith ++ ops }

/-- The group loop itself (lines 256-303): fold stepGroup over the product
groups, propagating a raised error. -/
def foldGroups (df : List Record) (vm : List (String × String))
    (showAll : Bool) (today : Nat) :
    Agg → List (String × List (String × String)) → Except String Agg
  | agg, [] => .ok agg
  | agg, g :: t =>
    match stepGroup df vm showAll today agg g with
    | .ok agg2 => foldGroups df vm showAll today agg2 t
    | .error e => .error e

/-- The result object assembled by format_results_by_product: per-product
outcomes, the unmapped-operator bucket and the operator tallies. -/
structure Report where
  productsWith : List (String × List String × List (Record × Option Nat))
  productsWithout : List (String × List String)
  unmapped : List String
  opsWith : List String
  opsWithout : List String
  deriving DecidableEq, Repr

/-- format_results_by_product (lines 217-408), with the printing stripped:
group the items by product, run the pipeline per group (a raised error
propagates and aborts the run), collect the unmapped operators of lines
306-313 in input order and extend the without-answer tally with them
(line 314). -/
def format_results_by_product (items : List SearchItem) (df : List Record)
    (vm : List (String × String)) (showAll : Bool) (today : Nat) :
    Except String Report :=
  match foldGroups df vm showAll today emptyAgg (productGroups items) with
  | .error e => .error e
  | .ok agg =>
    let unm := items.foldl
      (fun acc it => if it.product = "" then acc ++ [it.operator] else acc) []
    .ok ⟨agg.productsWith, agg.productsWithout, unm, agg.opsWith,
         agg.opsWithout ++ unm⟩

/-- Order on converted GA dates used by sort_values: NaT sorts last. -/
def dateKeyLe : Option Nat → Option Nat → Bool
  | some a, some b => decide (a ≤ b)
  | some _, none => true
  | none, some _ => false
  | none, none => true

/-- matches_first.sort_values('GA date') of line 330. -/
def sortByDate (l : List (Record × Option Nat)) : List (Record × Option Nat) :=
  sortBy (fun a b => dateKeyLe a.2 b.2) l

/-- The closest-release selection of lines 330-331: sort ascending by GA
date and take the first two rows. -/
def closestTwo (l : List (Record × Option Nat)) : List (Record × Option Nat) :=
  (sortByDate l).take 2

/- ---------------------------------------------------------------------
   The claimed named-entity override of claim C2 (spec side)
   --------------------------------------------------------------------- -/

/-- Canonical form of an operator name for the case- and hyphen/space-
insensitive comparison of claim C2: lower-case, hyphens read as spaces. -/
def canonName (s : String) : List Char :=
  s.data.map (fun c => if c = '-' then ' ' else c.toLower)

/-- The matching engine as claim C2 describes it: when the operator's
canonical name matches the fixed literal, search the release column for the
literal string first, then fall back to the engine.  This definition follows
the words of the claim, to be compared with search_by_product, which is
translated from the source. -/
def searchByProductC2spec (operatorName : String) (df : List Record)
    (product_name release_name : String) : List Record :=
  if canonName operatorName = canonName "cluster-observability operator" then
    let rm := searchRelease df "cluster observability operator"
    if rm ≠ [] then rm else search_by_product df product_name release_name
  else search_by_product df product_name release_name

/-- Strict order on converted GA dates: both present and strictly earlier. -/
def dateKeyLt (a b : Option Nat) : Bool :=
  match a, b with
  | some x, some y => decide (x < y)
  | _, _ => false

/-- The order of first appearance of the values of a list, the
characterization the order-preservation property compares the grouping
against. -/
def firstAppearances (ps : List String) : List String :=
  ps.foldl (fun acc p => if p ∈ acc then acc else acc ++ [p]) []

/- ---------------------------------------------------------------------
   Concrete data used by the witness theorems
   --------------------------------------------------------------------- -/

/-- A past release of product ProdX. -/
def rec1 : Record :=
  ⟨"BU1", "ProdX", "X 1.0", "x1", "id1", "ga1", some "2020-05-01", "l1", none⟩

/-- The earlier row of the future release X 2.0. -/
def rec2 : Record :=
  ⟨"BU1", "ProdX", "X 2.0", "x2", "id2", "ga2", some "2030-01-05", "l2", none⟩

/-- A later duplicate row of the same release X 2.0. -/
def rec3 : Record :=
  ⟨"BU1", "ProdX", "X 2.0", "x2", "id3", "ga3", some "2031-02-02", "l3", none⟩

/-- A third future release X 3.0. -/
def rec4 : Record :=
  ⟨"BU1", "ProdX", "X 3.0", "x3", "id4", "ga4", some "2032-03-03", "l4", none⟩

/-- A row with a missing GA date. -/
def recND : Record :=
  ⟨"BU1", "ProdX", "X 4.0", "x4", "id5", "ga5", none, "l5", none⟩

/-- A small release table. -/
def dfW : List Record := [rec1, rec2, rec3, rec4, recND]

/-- Search items: two operators mapped to ProdX, one unmapped operator, one
operator mapped to a product with no releases. -/
def itemsW : List SearchItem :=
  [⟨"opA", "ProdX", ""⟩, ⟨"opB", "ProdX", ""⟩, ⟨"opC", "", ""⟩,
   ⟨"opD", "NoSuch", ""⟩]

/-- The filtered, deduplicated match set of the resolved group ProdX on
the table dfW with today = 20251012. -/
def futW : List (Record × Option Nat) :=
  [(rec2, some 20300105), (rec4, some 20320303)]

/-- The future-filtered dated rows of the group ProdX before release
deduplication: two rows of release X 2.0 and one of X 3.0. -/
def futBigW : List (Record × Option Nat) :=
  [(rec2, some 20300105), (rec3, some 20310202), (rec4, some 20320303)]

/-- The report produced on itemsW and dfW with no version map, future-only
mode and today = 20251012. -/
def repW : Report :=
  ⟨[("ProdX", ["opA", "opB"], futW)], [("NoSuch", ["opD"])], ["opC"],
   ["opA", "opB"], ["opD", "opC"]⟩

/-- A row whose GA date is present but unparsable. -/
def recBad : Record :=
  ⟨"BU2", "BadProd", "B 1.0", "b1", "idb", "gab", some "garbage", "lb", none⟩

/-- A row whose Release column holds the literal of claim C2, in a table
where nothing matches the product name zzz. -/
def rowC2 : Record :=
  ⟨"BU3", "Other", "cluster observability operator", "coo", "idc", "gac",
   some "2030-06-06", "lc", none⟩

/-- The one-row table of the C2 counterexample. -/
def dfC2 : List Record := [rowC2]

/- ---------------------------------------------------------------------
   Helper lemmas: deduplication
   --------------------------------------------------------------------- -/

theorem mem_dedupKeepFirst {α : Type} [DecidableEq α] (l : List α) (x : α) :
    x ∈ dedupKeepFirst l ↔ x ∈ l := by
  induction l with
  | nil => simp [dedupKeepFirst]
  | cons a t ih =>
    simp only [dedupKeepFirst, List.mem_cons, List.mem_filter,
      decide_eq_true_eq]
    constructor
    · rintro (rfl | ⟨hx, _⟩)
      · exact Or.inl rfl
      · exact Or.inr (ih.mp hx)
    · rintro (rfl | hx)
      · exact Or.inl rfl
      · by_cases hxa : x = a
        · exact Or.inl hxa
        · exact Or.inr ⟨ih.mpr hx, hxa⟩

theorem pairwise_ne_dedupKeepFirst {α : Type} [DecidableEq α] (l : List α) :
    (dedupKeepFirst l).Pairwise (fun a b => a ≠ b) := by
  induction l with
  | nil => simp [dedupKeepFirst]
  | cons a t ih =>
    simp only [dedupKeepFirst]
    refine List.pairwise_cons.mpr ⟨?_, ih.filter _⟩
    intro x hx
    have hne := (List.mem_filter.mp hx).2
    simp only [decide_eq_true_eq] at hne
    exact hne.symm

/- ---------------------------------------------------------------------
   Helper lemmas: insertion sort
   --------------------------------------------------------------------- -/

theorem insertBy_perm {α : Type} (le : α → α → Bool) (a : α) (l : List α) :
    List.Perm (insertBy le a l) (a :: l) := by
  induction l with
  | nil => exact List.Perm.refl _
  | cons b t ih =>
    by_cases h : le a b
    · simp only [insertBy, h, if_true]
      exact List.Perm.refl _
    · simp only [insertBy, h, if_false]
      exact (ih.cons b).trans (List.Perm.swap a b t)

theorem sortBy_perm {α : Type} (le : α → α → Bool) (l : List α) :
    List.Perm (sortBy le l) l := by
  induction l with
  | nil => exact List.Perm.refl _
  | cons a t ih => exact (insertBy_perm le a (sortBy le t)).trans (ih.cons a)

theorem insertBy_pairwise {α : Type} {le : α → α → Bool}
    (htrans : ∀ a b c, le a b = true → le b c = true → le a c = true)
    (htot : ∀ a b, le a b = true ∨ le b a = true)
    (a : α) {l : List α} (h : l.Pairwise (fun x y => le x y = true)) :
    (insertBy le a l).Pairwise (fun x y => le x y = true) := by
  induction l with
  | nil => simp [insertBy]
  | cons b t ih =>
    rcases List.pairwise_cons.mp h with ⟨hb, ht⟩
    by_cases hab : le a b
    · simp only [insertBy, hab, if_true]
      refine List.pairwise_cons.mpr ⟨?_, h⟩
      intro x hx
      rcases List.mem_cons.mp hx with rfl | hx2
      · exact hab
      · exact htrans a b x hab (hb x hx2)
    · have hba : le b a = true := by
        rcases htot a b with h1 | h1
        · exact absurd h1 hab
        · exact h1
      simp only [insertBy, hab, if_false]
      refine List.pairwise_cons.mpr ⟨?_, ih ht⟩
      intro x hx
      have hx2 := (insertBy_perm le a t).mem_iff.mp hx
      rcases List.mem_cons.mp hx2 with rfl | hx3
      · exact hba
      · exact hb x hx3

theorem sortBy_pairwise {α : Type} {le : α → α → Bool}
    (htrans : ∀ a b c, le a b = true → le b c = true → le a c = true)
    (htot : ∀ a b, le a b = true ∨ le b a = true)
    (l : List α) : (sortBy le l).Pairwise (fun x y => le x y = true) := by
  induction l with
  | nil => simp [sortBy]
  | cons a t ih => exact insertBy_pairwise htrans htot a ih

theorem dateKeyLe_trans (a b c : Option Nat) (h1 : dateKeyLe a b = true)
    (h2 : dateKeyLe b c = true) : dateKeyLe a c = true := by
  cases a <;> cases b <;> cases c <;> simp_all [dateKeyLe]
  omega

theorem dateKeyLe_total (a b : Option Nat) :
    dateKeyLe a b = true ∨ dateKeyLe b a = true := by
  cases a with
  | none => cases b <;> simp [dateKeyLe]
  | some x =>
    cases b with
    | none => simp [dateKeyLe]
    | some y =>
      simp only [dateKeyLe, decide_eq_true_eq]
      omega

/- ---------------------------------------------------------------------
   Helper lemmas: mapExcept
   --------------------------------------------------------------------- -/

theorem mapExcept_ok_forall2 {α β : Type} {f : α → Except String β} :
    ∀ {ks : List α} {res : List β}, mapExcept f ks = .ok res →
      List.Forall₂ (fun k r => f k = .ok r) ks res := by
  intro ks
  induction ks with
  | nil =>
    intro res h
    simp only [mapExcept, Except.ok.injEq] at h
    subst h
    exact List.Forall₂.nil
  | cons a t ih =>
    intro res h
    simp only [mapExcept] at h
    cases hfa : f a with
    | error e => rw [hfa] at h; exact absurd h (by simp)
    | ok b =>
      rw [hfa] at h
      cases hmt : mapExcept f t with
      | error e => rw [hmt] at h; exact absurd h (by simp)
      | ok bs =>
        rw [hmt] at h
        simp only [Except.ok.injEq] at h
        subst h
        exact List.Forall₂.cons hfa (ih hmt)

theorem forall2_mem_right {α β : Type} {R : α → β → Prop} :
    ∀ {ks : List α} {res : List β}, List.Forall₂ R ks res →
      ∀ r ∈ res, ∃ k ∈ ks, R k r := by
  intro ks res h
  induction h with
  | nil => intro r hr; exact absurd hr (by simp)
  | cons hR _ ih =>
    intro r hr
    rcases List.mem_cons.mp hr with rfl | hr2
    · exact ⟨_, List.mem_cons_self _ _, hR⟩
    · rcases ih r hr2 with ⟨k, hk, hkr⟩
      exact ⟨k, List.mem_cons_of_mem _ hk, hkr⟩

theorem forall2_mem_left {α β : Type} {R : α → β → Prop} :
    ∀ {ks : List α} {res : List β}, List.Forall₂ R ks res →
      ∀ k ∈ ks, ∃ r ∈ res, R k r := by
  intro ks res h
  induction h with
  | nil => intro k hk; exact absurd hk (by simp)
  | cons hR _ ih =>
    intro k hk
    rcases List.mem_cons.mp hk with rfl | hk2
    · exact ⟨_, List.mem_cons_self _ _, hR⟩
    · rcases ih k hk2 with ⟨r, hr, hkr⟩
      exact ⟨r, List.mem_cons_of_mem _ hr, hkr⟩

theorem forall2_pairwise {α β : Type} {R : α → β → Prop} {P : α → α → Prop}
    {Q : β → β → Prop}
    (hPQ : ∀ k1 r1 k2 r2, R k1 r1 → R k2 r2 → P k1 k2 → Q r1 r2) :
    ∀ {ks : List α} {res : List β}, List.Forall₂ R ks res →
      ks.Pairwise P → res.Pairwise Q := by
  intro ks res h
  induction h with
  | nil => intro _; exact List.Pairwise.nil
  | @cons k r ks2 res2 hR hF ih =>
    intro hp
    rcases List.pairwise_cons.mp hp with ⟨hk, hp2⟩
    refine List.pairwise_cons.mpr ⟨?_, ih hp2⟩
    intro r2 hr2
    rcases forall2_mem_right hF r2 hr2 with ⟨k2, hk2, hR2⟩
    exact hPQ k r k2 r2 hR hR2 (hk k2 hk2)

/- ---------------------------------------------------------------------
   Helper lemmas: filters and lengths
   --------------------------------------------------------------------- -/

theorem filter_split {α : Type} {p : α → Bool} :
    ∀ {l pre post : List α} {a : α}, l.filter p = pre ++ a :: post →
      ∃ l1 l2, l = l1 ++ a :: l2 ∧ l1.filter p = pre := by
  intro l
  induction l with
  | nil =>
    intro pre post a h
    exact absurd h.symm (List.append_ne_nil_of_right_ne_nil pre (by simp))
  | cons x t ih =>
    intro pre post a h
    by_cases hx : p x
    · rw [List.filter_cons_of_pos hx] at h
      cases pre with
      | nil =>
        simp only [List.nil_append, List.cons.injEq] at h
        obtain ⟨rfl, -⟩ := h
        exact ⟨[], t, rfl, rfl⟩
      | cons y ys =>
        simp only [List.cons_append, List.cons.injEq] at h
        obtain ⟨rfl, h2⟩ := h
        obtain ⟨l1, l2, rfl, hf⟩ := ih h2
        exact ⟨x :: l1, l2, rfl, by rw [List.filter_cons_of_pos hx, hf]⟩
    · rw [List.filter_cons_of_neg (by simpa using hx)] at h
      obtain ⟨l1, l2, rfl, hf⟩ := ih h
      exact ⟨x :: l1, l2, rfl,
        by rw [List.filter_cons_of_neg (by simpa using hx), hf]⟩

/- ---------------------------------------------------------------------
   Helper lemmas: idxmin and groupby deduplication
   --------------------------------------------------------------------- -/

theorem pickMinD_min :
    ∀ (t : List (Record × Option Nat)) (b : Record × Nat),
      (pickMinD b t).2 ≤ b.2 ∧
      ∀ x ∈ t, ∀ dx, x.2 = some dx → (pickMinD b t).2 ≤ dx := by
  intro t
  induction t with
  | nil => intro b; exact ⟨Nat.le_refl _, by simp⟩
  | cons x t ih =>
    intro b
    rcases x with ⟨r, od⟩
    cases od with
    | none =>
      simp only [pickMinD]
      rcases ih b with ⟨h1, h2⟩
      refine ⟨h1, ?_⟩
      intro y hy dy hdy
      rcases List.mem_cons.mp hy with rfl | hy2
      · simp at hdy
      · exact h2 y hy2 dy hdy
    | some d =>
      by_cases hd : d < b.2
      · simp only [pickMinD, hd, if_true]
        rcases ih (r, d) with ⟨h1, h2⟩
        refine ⟨Nat.le_trans h1 (Nat.le_of_lt hd), ?_⟩
        intro y hy dy hdy
        rcases List.mem_cons.mp hy with rfl | hy2
        · simp only [Option.some.injEq] at hdy
          subst hdy
          exact h1
        · exact h2 y hy2 dy hdy
      · simp only [pickMinD, hd, if_false]
        rcases ih b with ⟨h1, h2⟩
        refine ⟨h1, ?_⟩
        intro y hy dy hdy
        rcases List.mem_cons.mp hy with rfl | hy2
        · simp only [Option.some.injEq] at hdy
          subst hdy
          exact Nat.le_trans h1 (Nat.le_of_not_lt hd)
        · exact h2 y hy2 dy hdy

theorem pickMinD_split :
    ∀ (t : List (Record × Option Nat)) (b : Record × Nat),
      ∃ pre post,
        (b.1, some b.2) :: t
          = pre ++ ((pickMinD b t).1, some (pickMinD b t).2) :: post
        ∧ ∀ x ∈ pre, ∀ dx, x.2 = some dx → (pickMinD b t).2 < dx := by
  intro t
  induction t with
  | nil =>
    intro b
    exact ⟨[], [], by simp [pickMinD], by simp⟩
  | cons x t ih =>
    intro b
    rcases x with ⟨r, od⟩
    cases od with
    | none =>
      rcases ih b with ⟨pre, post, hdec, hstrict⟩
      cases pre with
      | nil =>
        simp only [List.nil_append] at hdec
        refine ⟨[], (r, none) :: t, ?_, by simp⟩
        simp only [pickMinD, List.nil_append]
        rw [List.cons.injEq] at hdec
        rw [← hdec.1]
      | cons q pre2 =>
        simp only [List.cons_append, List.cons.injEq] at hdec
        obtain ⟨hq, ht⟩ := hdec
        refine ⟨(b.1, some b.2) :: (r, none) :: pre2, post, ?_, ?_⟩
        · simp only [pickMinD, List.cons_append]
          exact congrArg (fun z => (b.1, some b.2) :: (r, none) :: z) ht
        · intro y hy dy hdy
          rcases List.mem_cons.mp hy with rfl | hy2
          · have := hstrict q (List.mem_cons_self _ _)
            rw [← hq] at this
            simpa [pickMinD] using this dy hdy
          · rcases List.mem_cons.mp hy2 with rfl | hy3
            · simp at hdy
            · have := hstrict y (List.mem_cons_of_mem _ hy3) dy hdy
              simpa [pickMinD] using this
    | some d =>
      by_cases hd : d < b.2
      · rcases ih (r, d) with ⟨pre, post, hdec, hstrict⟩
        refine ⟨(b.1, some b.2) :: pre, post, ?_, ?_⟩
        · simp only [pickMinD, hd, if_true, List.cons_append]
          exact congrArg (fun z => (b.1, some b.2) :: z) hdec
        · intro y hy dy hdy
          rcases List.mem_cons.mp hy with rfl | hy2
          · simp only [Option.some.injEq] at hdy
            subst hdy
            have hle := (pickMinD_min t (r, d)).1
            simp only [pickMinD, hd, if_true]
            exact Nat.lt_of_le_of_lt hle hd
          · have := hstrict y hy2 dy hdy
            simpa [pickMinD, hd] using this
      · rcases ih b with ⟨pre, post, hdec, hstrict⟩
        cases pre with
        | nil =>
          simp only [List.nil_append] at hdec
          refine ⟨[], (r, some d) :: t, ?_, by simp⟩
          simp only [pickMinD, hd, if_false, List.nil_append]
          rw [List.cons.injEq] at hdec
          rw [← hdec.1]
        | cons q pre2 =>
          simp only [List.cons_append, List.cons.injEq] at hdec
          obtain ⟨hq, ht⟩ := hdec
          refine ⟨(b.1, some b.2) :: (r, some d) :: pre2, post, ?_, ?_⟩
          · simp only [pickMinD, hd, if_false, List.cons_append]
            exact congrArg (fun z => (b.1, some b.2) :: (r, some d) :: z) ht
          · intro y hy dy hdy
            have hqb := hstrict q (List.mem_cons_self _ _)
            rw [← hq] at hqb
            have hltb : (pickMinD b t).2 < b.2 := hqb b.2 rfl
            rcases List.mem_cons.mp hy with rfl | hy2
            · simp only [Option.some.injEq] at hdy
              subst hdy
              simpa [pickMinD, hd] using hltb
            · rcases List.mem_cons.mp hy2 with rfl | hy3
              · simp only [Option.some.injEq] at hdy
                subst hdy
                have hlt2 : (pickMinD b t).2 < d :=
                  Nat.lt_of_lt_of_le hltb (Nat.le_of_not_lt hd)
                simpa [pickMinD, hd] using hlt2
              · have := hstrict y (List.mem_cons_of_mem _ hy3) dy hdy
                simpa [pickMinD, hd] using this

theorem pickMinD_mem :
    ∀ (t : List (Record × Option Nat)) (b : Record × Nat),
      pickMinD b t = b ∨ ((pickMinD b t).1, some (pickMinD b t).2) ∈ t := by
  intro t
  induction t with
  | nil => intro b; exact Or.inl rfl
  | cons x t ih =>
    intro b
    rcases x with ⟨r, od⟩
    cases od with
    | none =>
      simp only [pickMinD]
      rcases ih b with h | h
      · exact Or.inl h
      · exact Or.inr (List.mem_cons_of_mem _ h)
    | some d =>
      by_cases hd : d < b.2
      · simp only [pickMinD, hd, if_true]
        rcases ih (r, d) with h | h
        · rw [h]
          exact Or.inr (List.mem_cons_self _ _)
        · exact Or.inr (List.mem_cons_of_mem _ h)
      · simp only [pickMinD, hd, if_false]
        rcases ih b with h | h
        · exact Or.inl h
        · exact Or.inr (List.mem_cons_of_mem _ h)

theorem idxminGroup_mem (g : List (Record × Option Nat)) (p : Record × Nat)
    (h : idxminGroup g = some p) : (p.1, some p.2) ∈ g := by
  induction g with
  | nil => exact absurd h (by simp [idxminGroup])
  | cons x t ih =>
    rcases x with ⟨r, od⟩
    cases od with
    | none =>
      simp only [idxminGroup] at h
      exact List.mem_cons_of_mem _ (ih h)
    | some d =>
      simp only [idxminGroup, Option.some.injEq] at h
      subst h
      rcases pickMinD_mem t (r, d) with h2 | h2
      · rw [h2]
        exact List.mem_cons_self _ _
      · exact List.mem_cons_of_mem _ h2

theorem idxminGroup_split (g : List (Record × Option Nat))
    (hne : g ≠ []) (hAll : ∀ x ∈ g, x.2.isSome = true) :
    ∃ p, idxminGroup g = some p
      ∧ (∃ pre post, g = pre ++ (p.1, some p.2) :: post
          ∧ ∀ x ∈ pre, ∀ dx, x.2 = some dx → p.2 < dx)
      ∧ ∀ x ∈ g, ∀ dx, x.2 = some dx → p.2 ≤ dx := by
  cases g with
  | nil => exact absurd rfl hne
  | cons x t =>
    rcases x with ⟨r, od⟩
    cases od with
    | none =>
      have := hAll (r, none) (List.mem_cons_self _ _)
      simp at this
    | some d =>
      refine ⟨pickMinD (r, d) t, by simp [idxminGroup], ?_, ?_⟩
      · exact pickMinD_split t (r, d)
      · intro y hy dy hdy
        rcases List.mem_cons.mp hy with rfl | hy2
        · simp only [Option.some.injEq] at hdy
          subst hdy
          exact (pickMinD_min t (r, d)).1
        · exact (pickMinD_min t (r, d)).2 y hy2 dy hdy

theorem groupByReleaseMin_subset (l res : List (Record × Option Nat))
    (h : groupByReleaseMin l = .ok res) : ∀ rd ∈ res, rd ∈ l := by
  intro rd hrd
  have hF := mapExcept_ok_forall2 h
  rcases forall2_mem_right hF rd hrd with ⟨k, hk, hfk⟩
  cases hidx : idxminGroup (l.filter (fun x => decide (x.1.release = k))) with
  | none => rw [hidx] at hfk; exact absurd hfk (by simp)
  | some p =>
    rw [hidx] at hfk
    simp only [Except.ok.injEq] at hfk
    subst hfk
    have hmem := idxminGroup_mem _ _ hidx
    exact (List.mem_filter.mp hmem).1

theorem groupByReleaseMin_entry_key (l : List (Record × Option Nat))
    (k : String) (rd : Record × Option Nat)
    (h : (match idxminGroup (l.filter (fun x => decide (x.1.release = k))) with
          | some p => Except.ok (p.1, some p.2)
          | none =>
            Except.error "attempt to get argmin of an all-NA group")
         = Except.ok rd) :
    rd.1.release = k ∧ rd ∈ l := by
  cases hidx : idxminGroup (l.filter (fun x => decide (x.1.release = k))) with
  | none => rw [hidx] at h; exact absurd h (by simp)
  | some p =>
    rw [hidx] at h
    simp only [Except.ok.injEq] at h
    subst h
    have hmem := idxminGroup_mem _ _ hidx
    have := List.mem_filter.mp hmem
    refine ⟨by simpa using this.2, this.1⟩

theorem mem_sortedKeys (l : List (Record × Option Nat)) (k : String) :
    k ∈ sortedKeys l ↔ ∃ rd ∈ l, rd.1.release = k := by
  unfold sortedKeys
  rw [(sortBy_perm strLe _).mem_iff, mem_dedupKeepFirst]
  simp [List.mem_map]

theorem sortedKeys_pairwise_ne (l : List (Record × Option Nat)) :
    (sortedKeys l).Pairwise (fun a b => a ≠ b) := by
  unfold sortedKeys
  exact ((sortBy_perm strLe _).pairwise_iff (fun h => Ne.symm h)).mpr
    (pairwise_ne_dedupKeepFirst _)

theorem length_filter_partition {α : Type} (p : α → Bool) (l : List α) :
    (l.filter p).length + (l.filter (fun x => !(p x))).length = l.length := by
  induction l with
  | nil => rfl
  | cons a t ih =>
    cases h : p a
    · simp only [List.filter_cons, h, Bool.not_false, if_true,
        Bool.false_eq_true, if_false, List.length_cons]
      omega
    · simp only [List.filter_cons, h, Bool.not_true, if_true,
        Bool.false_eq_true, if_false, List.length_cons]
      omega

/- ---------------------------------------------------------------------
   Helper lemmas: the regex layer on escaped terms
   --------------------------------------------------------------------- -/

theorem reSpecial_all_not_alnum :
    reSpecial.all (fun c => !c.isAlphanum) = true := by decide

theorem backslash_mem_reSpecial : '\\' ∈ reSpecial := by decide

theorem dot_mem_reSpecial : '.' ∈ reSpecial := by decide

theorem parseRx_escape (cs : List Char) :
    parseRx (cs.foldr
      (fun c acc => if c ∈ reSpecial then '\\' :: c :: acc else c :: acc) [])
      = .ok (cs.map RTok.lit) := by
  induction cs with
  | nil => rfl
  | cons c t ih =>
    by_cases hc : c ∈ reSpecial
    · have halnum : c.isAlphanum = false := by
        have := List.all_eq_true.mp reSpecial_all_not_alnum c hc
        simpa using this
      simp only [List.foldr_cons, hc, if_true, parseRx, if_pos rfl, halnum,
        Bool.false_eq_true, if_false, ih, Except.map, List.map_cons]
    · have hbs : c ≠ '\\' := fun h => hc (h ▸ backslash_mem_reSpecial)
      have hdot : c ≠ '.' := fun h => hc (h ▸ dot_mem_reSpecial)
      simp only [List.foldr_cons, hc, if_false]
      rw [parseRx.eq_def]
      simp only []
      rw [if_neg hbs, if_neg hdot, if_neg hc, ih]
      rfl

theorem rxMatchHere_lit (cs : List Char) :
    ∀ hay : List Char,
      rxMatchHere (cs.map RTok.lit) hay
        = isPfx (cs.map Char.toLower) (hay.map Char.toLower) := by
  induction cs with
  | nil => intro hay; rfl
  | cons c t ih =>
    intro hay
    cases hay with
    | nil => rfl
    | cons h hs =>
      simp only [List.map_cons, rxMatchHere, tokMatches, isPfx, ih]
      by_cases he : c.toLower = h.toLower
      · simp [he]
      · simp [he]

theorem rxSearch_lit (cs : List Char) :
    ∀ hay : List Char,
      rxSearch (cs.map RTok.lit) hay
        = containsSub (hay.map Char.toLower) (cs.map Char.toLower) := by
  intro hay
  induction hay with
  | nil =>
    simp only [rxSearch, containsSub, rxMatchHere_lit, List.map_nil]
  | cons h hs ih =>
    simp only [rxSearch, containsSub, rxMatchHere_lit, List.map_cons, ih]

/- ---------------------------------------------------------------------
   Helper lemmas: grouping by product
   --------------------------------------------------------------------- -/

theorem lookup_isSome_iff_mem_keys {β : Type}
    (gs : List (String × β)) (p : String) :
    (gs.lookup p).isSome = true ↔ p ∈ gs.map Prod.fst := by
  induction gs with
  | nil => simp [List.lookup]
  | cons g t ih =>
    rcases g with ⟨k, v⟩
    by_cases hpk : p = k
    · subst hpk
      simp [List.lookup]
    · have hbeq : (p == k) = false := beq_false_of_ne hpk
      simp [List.lookup, hbeq, ih, hpk]

theorem keys_appendToGroup (p : String) (x : String × String)
    (gs : List (String × List (String × String))) :
    (appendToGroup p x gs).map Prod.fst = gs.map Prod.fst := by
  induction gs with
  | nil => rfl
  | cons g t ih =>
    by_cases hg : g.1 = p
    · simp [appendToGroup, hg]
    · simp [appendToGroup, hg, ih]

theorem keys_addItem (gs : List (String × List (String × String)))
    (it : SearchItem) :
    (addItem gs it).map Prod.fst
      = if it.product = "" then gs.map Prod.fst
        else if it.product ∈ gs.map Prod.fst then gs.map Prod.fst
        else gs.map Prod.fst ++ [it.product] := by
  by_cases hp : it.product = ""
  · simp [addItem, hp]
  · by_cases hm : it.product ∈ gs.map Prod.fst
    · have hs : (gs.lookup it.product).isSome = true :=
        (lookup_isSome_iff_mem_keys gs it.product).mpr hm
      simp [addItem, hp, hm, hs, keys_appendToGroup]
    · have hs : (gs.lookup it.product).isSome = false := by
        cases h2 : (gs.lookup it.product).isSome
        · rfl
        · exact absurd ((lookup_isSome_iff_mem_keys gs it.product).mp h2) hm
      simp [addItem, hp, hm, hs]

theorem keys_foldl_addItem :
    ∀ (its : List SearchItem) (gs : List (String × List (String × String))),
      (its.foldl addItem gs).map Prod.fst
        = ((its.map SearchItem.product).filter
            (fun q => decide (q ≠ ""))).foldl
            (fun acc q => if q ∈ acc then acc else acc ++ [q])
            (gs.map Prod.fst) := by
  intro its
  induction its with
  | nil => intro gs; rfl
  | cons it t ih =>
    intro gs
    rw [List.foldl_cons, List.map_cons, List.filter_cons]
    by_cases hp : it.product = ""
    · have haddI : addItem gs it = gs := by simp [addItem, hp]
      have hdec : (decide (it.product ≠ "")) = false := by simp [hp]
      rw [hdec]
      simp only [Bool.false_eq_true, if_false]
      rw [ih, haddI]
    · have hdec : (decide (it.product ≠ "")) = true := by simp [hp]
      rw [hdec]
      simp only [eq_self_iff_true, if_true]
      rw [List.foldl_cons, ih, keys_addItem, if_neg hp]

theorem sizes_appendToGroup (p : String) (x : String × String) :
    ∀ gs : List (String × List (String × String)),
      p ∈ gs.map Prod.fst →
      ((appendToGroup p x gs).map (fun g => g.2.length)).sum
        = ((gs.map (fun g => g.2.length)).sum) + 1 := by
  intro gs
  induction gs with
  | nil => intro h; exact absurd h (by simp)
  | cons g t ih =>
    intro h
    rw [List.map_cons, List.mem_cons] at h
    by_cases hg : g.1 = p
    · simp only [appendToGroup, hg, if_true, List.map_cons, List.sum_cons,
        List.length_append, List.length_cons, List.length_nil]
      omega
    · have hmem : p ∈ t.map Prod.fst := by
        rcases h with h2 | h2
        · exact absurd h2.symm hg
        · exact h2
      simp only [appendToGroup, hg, if_false, List.map_cons, List.sum_cons,
        ih hmem]
      omega

theorem sizes_foldl_addItem :
    ∀ (its : List SearchItem) (gs : List (String × List (String × String))),
      ((its.foldl addItem gs).map (fun g => g.2.length)).sum
        = ((gs.map (fun g => g.2.length)).sum)
          + (its.filter (fun it => !(decide (it.product = "")))).length := by
  intro its
  induction its with
  | nil => intro gs; simp
  | cons it t ih =>
    intro gs
    rw [List.foldl_cons, List.filter_cons]
    by_cases hp : it.product = ""
    · have haddI : addItem gs it = gs := by simp [addItem, hp]
      have hdec0 : (!(decide (it.product = ""))) = false := by simp [hp]
      rw [haddI, hdec0]
      simp only [Bool.false_eq_true, if_false]
      exact ih gs
    · have hdec : (!(decide (it.product = ""))) = true := by simp [hp]
      rw [hdec]
      simp only [eq_self_iff_true, if_true, List.length_cons]
      rw [ih]
      by_cases hm : (gs.lookup it.product).isSome
      · have haddI : addItem gs it
            = appendToGroup it.product (it.operator, it.releaseHint) gs := by
          simp [addItem, hp, hm]
        rw [haddI, sizes_appendToGroup _ _ gs
          ((lookup_isSome_iff_mem_keys gs it.product).mp hm)]
        omega
      · have hs : (gs.lookup it.product).isSome = false := by
          cases h2 : (gs.lookup it.product).isSome
          · rfl
          · exact absurd h2 hm
        have haddI : addItem gs it
            = gs ++ [(it.product, [(it.operator, it.releaseHint)])] := by
          simp [addItem, hp, hs]
        rw [haddI]
        simp only [List.map_append, List.sum_append, List.map_cons,
          List.sum_cons, List.map_nil, List.sum_nil, List.length_cons,
          List.length_nil]
        omega

theorem unm_foldl (items : List SearchItem) :
    ∀ acc0 : List String,
      items.foldl
        (fun acc it => if it.product = "" then acc ++ [it.operator] else acc)
        acc0
      = acc0 ++ (items.filter
          (fun it => decide (it.product = ""))).map SearchItem.operator := by
  induction items with
  | nil => intro acc0; simp
  | cons it t ih =>
    intro acc0
    by_cases hp : it.product = ""
    · rw [List.foldl_cons, if_pos hp, ih]
      simp [List.filter_cons, hp]
    · rw [List.foldl_cons, if_neg hp, ih]
      simp [List.filter_cons, hp]

/- ---------------------------------------------------------------------
   Helper lemmas: the group loop
   --------------------------------------------------------------------- -/

theorem foldGroups_count (df : List Record) (vm : List (String × String))
    (sa : Bool) (td : Nat) :
    ∀ (gs : List (String × List (String × String))) (agg0 agg : Agg),
      foldGroups df vm sa td agg0 gs = .ok agg →
      agg.opsWith.length + agg.opsWithout.length
        = agg0.opsWith.length + agg0.opsWithout.length
          + ((gs.map (fun g => g.2.length)).sum) := by
  intro gs
  induction gs with
  | nil =>
    intro agg0 agg h
    simp only [foldGroups, Except.ok.injEq] at h
    subst h
    simp
  | cons g t ih =>
    intro agg0 agg h
    simp only [foldGroups] at h
    cases hstep : stepGroup df vm sa td agg0 g with
    | error e =>
      simp only [hstep] at h
      exact absurd h (by simp)
    | ok agg1 =>
      simp only [hstep] at h
      have hrec := ih agg1 agg h
      simp only [stepGroup] at hstep
      cases hpg : processGroup df vm sa td g.1 g.2 with
      | error e =>
        simp only [hpg] at hstep
        exact absurd hstep (by simp)
      | ok fut =>
        simp only [hpg] at hstep
        by_cases hfut : fut = []
        · rw [if_pos hfut] at hstep
          have hagg1 := Except.ok.inj hstep
          subst hagg1
          simp only [List.length_append, List.length_map] at hrec
          simp only [List.map_cons, List.sum_cons]
          omega
        · rw [if_neg hfut] at hstep
          have hagg1 := Except.ok.inj hstep
          subst hagg1
          simp only [List.length_append, List.length_map] at hrec
          simp only [List.map_cons, List.sum_cons]
          omega

theorem foldGroups_with_mem (df : List Record) (vm : List (String × String))
    (sa : Bool) (td : Nat) :
    ∀ (gs : List (String × List (String × String))) (agg0 agg : Agg),
      foldGroups df vm sa td agg0 gs = .ok agg →
      ∀ x ∈ agg.productsWith,
        x ∈ agg0.productsWith ∨
        ∃ g ∈ gs, ∃ fut, processGroup df vm sa td g.1 g.2 = .ok fut
          ∧ fut ≠ [] ∧ x = (g.1, g.2.map (fun y => y.1), fut) := by
  intro gs
  induction gs with
  | nil =>
    intro agg0 agg h x hx
    simp only [foldGroups, Except.ok.injEq] at h
    subst h
    exact Or.inl hx
  | cons g t ih =>
    intro agg0 agg h x hx
    simp only [foldGroups] at h
    cases hstep : stepGroup df vm sa td agg0 g with
    | error e =>
      simp only [hstep] at h
      exact absurd h (by simp)
    | ok agg1 =>
      simp only [hstep] at h
      have hrec := ih agg1 agg h x hx
      simp only [stepGroup] at hstep
      cases hpg : processGroup df vm sa td g.1 g.2 with
      | error e =>
        simp only [hpg] at hstep
        exact absurd hstep (by simp)
      | ok fut =>
        simp only [hpg] at hstep
        by_cases hfut : fut = []
        · rw [if_pos hfut] at hstep
          have hagg1 := Except.ok.inj hstep
          subst hagg1
          rcases hrec with h1 | ⟨g2, hg2, fut2, hp2, hne2, hx2⟩
          · exact Or.inl h1
          · exact Or.inr ⟨g2, List.mem_cons_of_mem _ hg2, fut2, hp2, hne2, hx2⟩
        · rw [if_neg hfut] at hstep
          have hagg1 := Except.ok.inj hstep
          subst hagg1
          rcases hrec with h1 | ⟨g2, hg2, fut2, hp2, hne2, hx2⟩
          · rcases List.mem_append.mp h1 with h2 | h2
            · exact Or.inl h2
            · have hx3 : x = (g.1, g.2.map (fun y => y.1), fut) := by
                simpa using h2
              exact Or.inr ⟨g, List.mem_cons_self _ _, fut, hpg, hfut, hx3⟩
          · exact Or.inr ⟨g2, List.mem_cons_of_mem _ hg2, fut2, hp2, hne2, hx2⟩

/- ---------------------------------------------------------------------
   Helper lemmas: date conversion and the per-group pipeline
   --------------------------------------------------------------------- -/

theorem toDatetimeCol_mem :
    ∀ {ms : List Record} {dated : List (Record × Option Nat)},
      toDatetimeCol ms = .ok dated →
      ∀ rd ∈ dated, rd.1 ∈ ms
        ∧ (rd.2 = none → rd.1.gaDate = none)
        ∧ ∀ d, rd.2 = some d →
            ∃ s, rd.1.gaDate = some s ∧ parseDate s = some d := by
  intro ms
  induction ms with
  | nil =>
    intro dated h rd hrd
    simp only [toDatetimeCol, Except.ok.injEq] at h
    subst h
    simp at hrd
  | cons r t ih =>
    intro dated h rd hrd
    simp only [toDatetimeCol] at h
    cases hga : r.gaDate with
    | none =>
      simp only [hga] at h
      cases hrec : toDatetimeCol t with
      | error e =>
        simp only [hrec] at h
        exact absurd h (by simp)
      | ok l =>
        simp only [hrec] at h
        have hde := Except.ok.inj h
        subst hde
        rcases List.mem_cons.mp hrd with rfl | hrd2
        · exact ⟨List.mem_cons_self _ _, fun _ => hga, fun d hd => by simp at hd⟩
        · rcases ih hrec rd hrd2 with ⟨h1, h2, h3⟩
          exact ⟨List.mem_cons_of_mem _ h1, h2, h3⟩
    | some s0 =>
      simp only [hga] at h
      cases hp : parseDate s0 with
      | none =>
        simp only [hp] at h
        exact absurd h (by simp)
      | some d0 =>
        simp only [hp] at h
        cases hrec : toDatetimeCol t with
        | error e =>
          simp only [hrec] at h
          exact absurd h (by simp)
        | ok l =>
          simp only [hrec] at h
          have hde := Except.ok.inj h
          subst hde
          rcases List.mem_cons.mp hrd with rfl | hrd2
          · refine ⟨List.mem_cons_self _ _, fun hn => by simp at hn, ?_⟩
            intro d hd
            simp only [Option.some.injEq] at hd
            subst hd
            exact ⟨s0, hga, hp⟩
          · rcases ih hrec rd hrd2 with ⟨h1, h2, h3⟩
            exact ⟨List.mem_cons_of_mem _ h1, h2, h3⟩

theorem toDatetimeCol_isOk (ms : List Record)
    (h : ∀ r ∈ ms, Option.all (fun s => (parseDate s).isSome) r.gaDate = true) :
    (toDatetimeCol ms).isOk = true := by
  induction ms with
  | nil => rfl
  | cons r t ih =>
    have hrec := ih (fun r2 hr2 => h r2 (List.mem_cons_of_mem _ hr2))
    simp only [toDatetimeCol]
    cases hga : r.gaDate with
    | none =>
      cases hrec2 : toDatetimeCol t with
      | error e => rw [hrec2] at hrec; exact absurd hrec (by simp [Except.isOk, Except.toBool])
      | ok l => simp [Except.isOk, Except.toBool]
    | some s0 =>
      have hs0 := h r (List.mem_cons_self _ _)
      rw [hga] at hs0
      simp only [Option.all] at hs0
      cases hp : parseDate s0 with
      | none => rw [hp] at hs0; simp at hs0
      | some d0 =>
        simp only [hp]
        cases hrec2 : toDatetimeCol t with
        | error e =>
          rw [hrec2] at hrec
          exact absurd hrec (by simp [Except.isOk, Except.toBool])
        | ok l => simp [Except.isOk, Except.toBool]

theorem mem_futureFilter (today : Nat) (dated : List (Record × Option Nat))
    (rd : Record × Option Nat) (h : rd ∈ futureFilterDated today dated) :
    rd ∈ dated ∧ isFutureDate today rd.2 = true := by
  have := List.mem_filter.mp h
  exact this

theorem closestTwo_subset (l : List (Record × Option Nat)) :
    ∀ rd ∈ closestTwo l, rd ∈ l := by
  intro rd hrd
  have h1 : rd ∈ sortByDate l := (List.take_sublist 2 (sortByDate l)).mem hrd
  exact (sortBy_perm _ l).mem_iff.mp h1

theorem processGroup_future (df : List Record) (vm : List (String × String))
    (today : Nat) (p : String) (ops : List (String × String))
    (fut : List (Record × Option Nat))
    (h : processGroup df vm false today p ops = .ok fut) :
    ∀ rd ∈ fut, isFutureDate today rd.2 = true := by
  intro rd hrd
  simp only [processGroup] at h
  by_cases h1 : unionMatches df p ops = []
  · rw [if_pos h1] at h
    have h2 := (Except.ok.inj h).symm
    subst h2
    simp at hrd
  · rw [if_neg h1] at h
    by_cases h2 : (if vm = [] then unionMatches df p ops
        else filter_by_version (unionMatches df p ops) p vm) = []
    · rw [if_pos h2] at h
      have h3 := (Except.ok.inj h).symm
      subst h3
      simp at hrd
    · rw [if_neg h2] at h
      cases hdt : toDatetimeCol (if vm = [] then unionMatches df p ops
          else filter_by_version (unionMatches df p ops) p vm) with
      | error e =>
        simp only [hdt] at h
        exact absurd h (by simp)
      | ok dated =>
        simp only [hdt, Bool.false_eq_true, if_false] at h
        by_cases h4 : futureFilterDated today dated = []
        · rw [if_pos h4] at h
          have h5 := (Except.ok.inj h).symm
          subst h5
          simp at hrd
        · rw [if_neg h4] at h
          have hsub := groupByReleaseMin_subset _ _ h rd hrd
          exact (mem_futureFilter today dated rd hsub).2

/- ---------------------------------------------------------------------
   Claim theorems
   --------------------------------------------------------------------- -/

/-- C1 counterexample: the claim says a record with an unparsable gaDate is
excluded from the temporal filter but never aborts the run.  On this code a
present but unparsable GA date makes pd.to_datetime raise: the temporal
filter itself errors, and the error propagates out of the whole report
computation, aborting the run. -/
theorem c1_counterexample :
    filter_future_releases 20251012 [recBad] = .error "garbage"
    ∧ format_results_by_product [⟨"op1", "BadProd", ""⟩] [recBad] [] false
        20251012 = .error "garbage" :=
  ⟨rfl, rfl⟩

/-- C1 (amended): for every match set reaching the temporal filter in
future-only mode, a record whose gaDate is missing (NaN) is excluded from
the filtered result and never aborts the run; but when every present gaDate
parses, the filter succeeds, and every surviving record has a present,
strictly future date.  (A present, unparsable gaDate instead raises and
aborts the run, per the counterexample.) -/
theorem c1_missing_date_nonfatal (today : Nat) (ms : List Record)
    (h : ∀ r ∈ ms, Option.all (fun s => (parseDate s).isSome) r.gaDate = true) :
    (filter_future_releases today ms).isOk = true
    ∧ ∀ fut, filter_future_releases today ms = .ok fut →
        ∀ rd ∈ fut, rd.1.gaDate ≠ none ∧ isFutureDate today rd.2 = true := by
  constructor
  · have hok := toDatetimeCol_isOk ms h
    simp only [filter_future_releases]
    cases hdt : toDatetimeCol ms with
    | error e => rw [hdt] at hok; simp [Except.isOk, Except.toBool] at hok
    | ok dated => simp [Except.isOk, Except.toBool]
  · intro fut hfut rd hrd
    simp only [filter_future_releases] at hfut
    cases hdt : toDatetimeCol ms with
    | error e =>
      simp only [hdt] at hfut
      exact absurd hfut (by simp)
    | ok dated =>
      simp only [hdt] at hfut
      have hfe := Except.ok.inj hfut
      subst hfe
      have hmem := List.mem_filter.mp hrd
      have hfd : isFutureDate today rd.2 = true := hmem.2
      refine ⟨?_, hfd⟩
      cases h2 : rd.2 with
      | none => rw [h2] at hfd; simp [isFutureDate] at hfd
      | some d =>
        rcases (toDatetimeCol_mem hdt rd hmem.1).2.2 d h2 with ⟨s, hs, _⟩
        simp [hs]

/-- Witness for the amended C1 at the concrete table dfW: every present GA
date of dfW parses, so the temporal filter runs without aborting. -/
theorem c1_missing_date_nonfatal_witness :
    (∀ r ∈ dfW, Option.all (fun s => (parseDate s).isSome) r.gaDate = true)
    ∧ (filter_future_releases 20251012 dfW).isOk = true :=
  ⟨by decide, (c1_missing_date_nonfatal 20251012 dfW (by decide)).1⟩

/-- C2 counterexample: the table dfC2 holds one row whose Release column is
exactly the literal of the claim.  Searching with an operator whose
canonical name matches the fixed literal, a product that matches nothing
and no release hint, the engine of the source returns nothing, while the
engine the claim describes would return the row: the code has no such
named-entity override. -/
theorem c2_counterexample :
    searchRelease dfC2 "cluster observability operator" = [rowC2]
    ∧ search_by_product dfC2 "zzz" "" = []
    ∧ searchByProductC2spec "Cluster-Observability Operator" dfC2 "zzz" ""
        ≠ search_by_product dfC2 "zzz" "" := by
  refine ⟨rfl, rfl, ?_⟩
  decide

/-- C2 (amended): the matching engine takes no operator name and has no
named-entity override: for every table and non-empty product, even when an
operator canonical name matches the fixed literal of the claim
(case- and hyphen/space-insensitive), a search without a release hint is
just the generic multi-column scan. -/
theorem c2_no_operator_override (df : List Record) (p op : String)
    (hp : p ≠ "")
    (_hop : canonName op = canonName "cluster-observability operator") :
    search_by_product df p "" = genericScan df p := by
  simp [search_by_product, hp]

/-- Witness for the amended C2 at a concrete table and the special-cased
operator name. -/
theorem c2_no_operator_override_witness :
    "ProdX" ≠ ""
    ∧ canonName "Cluster-Observability Operator"
        = canonName "cluster-observability operator"
    ∧ search_by_product dfW "ProdX" "" = genericScan dfW "ProdX" :=
  ⟨by decide, by decide,
   c2_no_operator_override dfW "ProdX" "Cluster-Observability Operator"
     (by decide) (by decide)⟩

/-- C3: for every resolved product group of the report, the shown records
are the first two of the set sorted ascending by GA date: their number is
min(closestN, size of the filtered set) with closestN = 2, they are sorted
ascending by GA date, and none of the unshown records has an earlier GA
date; the full filtered set (whose size the report prints) is fut itself. -/
theorem c3_bounded_selection (items : List SearchItem) (df : List Record)
    (vm : List (String × String)) (showAll : Bool) (today : Nat)
    (rep : Report) (p : String) (ops : List String)
    (fut : List (Record × Option Nat))
    (_hrep : format_results_by_product items df vm showAll today = .ok rep)
    (_hmem : (p, ops, fut) ∈ rep.productsWith) :
    (closestTwo fut).length = min 2 fut.length
    ∧ (closestTwo fut).Pairwise (fun a b => dateKeyLe a.2 b.2 = true)
    ∧ ∀ a ∈ closestTwo fut, ∀ b ∈ (sortByDate fut).drop 2,
        dateKeyLe a.2 b.2 = true := by
  have hsorted : (sortByDate fut).Pairwise
      (fun a b => dateKeyLe a.2 b.2 = true) :=
    sortBy_pairwise (fun a b c => dateKeyLe_trans a.2 b.2 c.2)
      (fun a b => dateKeyLe_total a.2 b.2) fut
  refine ⟨?_, ?_, ?_⟩
  · have hlen : (sortByDate fut).length = fut.length := by
      unfold sortByDate
      exact (sortBy_perm _ fut).length_eq
    unfold closestTwo
    rw [List.length_take, hlen]
  · exact hsorted.sublist (List.take_sublist 2 (sortByDate fut))
  · intro a ha b hb
    have hps := List.pairwise_append.mp
      (show ((sortByDate fut).take 2 ++ (sortByDate fut).drop 2).Pairwise
          (fun a b => dateKeyLe a.2 b.2 = true) by
        rw [List.take_append_drop]
        exact hsorted)
    exact hps.2.2 a ha b hb

/-- Witness for C3 at the concrete run on itemsW and dfW. -/
theorem c3_bounded_selection_witness :
    (closestTwo futW).length = min 2 futW.length :=
  (c3_bounded_selection itemsW dfW [] false 20251012 repW "ProdX"
    ["opA", "opB"] futW rfl (by decide)).1

/-- C4: the iteration order of the product groups equals the order of first
appearance of each non-empty product name in the normalized input; the
grouping is a pure function of the input, so rerunning on the same input
reproduces the same order. -/
theorem c4_order_preservation (items : List SearchItem) :
    (productGroups items).map Prod.fst
      = firstAppearances ((items.map SearchItem.product).filter
          (fun q => decide (q ≠ ""))) := by
  unfold productGroups firstAppearances
  simpa using keys_foldl_addItem items []

/-- C5: after release deduplication of a fully dated match set, the
surviving records have pairwise distinct release values; each survivor
belongs to the input set, has the earliest GA date among the records of its
release (every same-release record in the part of the input before it is
strictly later, so ties go to the first-seen record); every input release
is represented; and hence no two records of the final closest-two selection
share a release value. -/
theorem c5_release_dedup (l res : List (Record × Option Nat))
    (hAll : ∀ rd ∈ l, rd.2.isSome = true)
    (h : groupByReleaseMin l = .ok res) :
    res.Pairwise (fun a b => a.1.release ≠ b.1.release)
    ∧ (∀ r ∈ res, ∃ pre post, l = pre ++ r :: post
        ∧ (∀ x ∈ l, x.1.release = r.1.release → dateKeyLe r.2 x.2 = true)
        ∧ (∀ x ∈ pre, x.1.release = r.1.release → dateKeyLt r.2 x.2 = true))
    ∧ (∀ x ∈ l, ∃ r ∈ res, r.1.release = x.1.release)
    ∧ (closestTwo res).Pairwise (fun a b => a.1.release ≠ b.1.release) := by
  have hF := mapExcept_ok_forall2 h
  have hkeys := sortedKeys_pairwise_ne l
  have hpw : res.Pairwise (fun a b => a.1.release ≠ b.1.release) := by
    refine forall2_pairwise ?_ hF hkeys
    intro k1 r1 k2 r2 hR1 hR2 hne
    have e1 := (groupByReleaseMin_entry_key l k1 r1 hR1).1
    have e2 := (groupByReleaseMin_entry_key l k2 r2 hR2).1
    rw [e1, e2]
    exact hne
  refine ⟨hpw, ?_, ?_, ?_⟩
  · intro r hr
    rcases forall2_mem_right hF r hr with ⟨k, hk, hfk⟩
    have hrk : r.1.release = k := (groupByReleaseMin_entry_key l k r hfk).1
    cases hidx : idxminGroup (l.filter (fun x => decide (x.1.release = k))) with
    | none =>
      rw [hidx] at hfk
      exact absurd hfk (by simp)
    | some p =>
      rw [hidx] at hfk
      have hre : (p.1, some p.2) = r := Except.ok.inj hfk
      have hgne : l.filter (fun x => decide (x.1.release = k)) ≠ [] := by
        intro hemp
        rcases (mem_sortedKeys l k).mp hk with ⟨rd0, hrd0, hrel0⟩
        have hin : rd0 ∈ l.filter (fun x => decide (x.1.release = k)) :=
          List.mem_filter.mpr ⟨hrd0, by simp [hrel0]⟩
        rw [hemp] at hin
        simp at hin
      have hAllg : ∀ x ∈ l.filter (fun x => decide (x.1.release = k)),
          x.2.isSome = true :=
        fun x hx => hAll x (List.mem_filter.mp hx).1
      rcases idxminGroup_split _ hgne hAllg with
        ⟨p2, hidx2, ⟨pre, post, hdec, hstrict⟩, hminAll⟩
      have hp2 : p2 = p := by
        rw [hidx] at hidx2
        exact (Option.some.inj hidx2).symm
      subst hp2
      rcases filter_split hdec with ⟨Pre, Post, hl, hPre⟩
      refine ⟨Pre, Post, by rw [← hre]; exact hl, ?_, ?_⟩
      · intro x hx hxr
        have hxk : x.1.release = k := by rw [hxr, hrk]
        have hxg : x ∈ l.filter (fun y => decide (y.1.release = k)) :=
          List.mem_filter.mpr ⟨hx, by simp [hxk]⟩
        have hxs := hAll x hx
        cases h2 : x.2 with
        | none => rw [h2] at hxs; simp at hxs
        | some dx =>
          have hle := hminAll x hxg dx h2
          rw [← hre]
          simp only [dateKeyLe, decide_eq_true_eq]
          exact hle
      · intro x hxPre hxr
        have hxk : x.1.release = k := by rw [hxr, hrk]
        have hxPreg : x ∈ Pre.filter (fun y => decide (y.1.release = k)) :=
          List.mem_filter.mpr ⟨hxPre, by simp [hxk]⟩
        rw [hPre] at hxPreg
        have hxl : x ∈ l := by
          rw [hl]
          exact List.mem_append.mpr (Or.inl hxPre)
        have hxs := hAll x hxl
        cases h2 : x.2 with
        | none => rw [h2] at hxs; simp at hxs
        | some dx =>
          have hlt := hstrict x hxPreg dx h2
          rw [← hre]
          simp only [dateKeyLt, decide_eq_true_eq]
          exact hlt
  · intro x hx
    have hkmem : x.1.release ∈ sortedKeys l :=
      (mem_sortedKeys l _).mpr ⟨x, hx, rfl⟩
    rcases forall2_mem_left hF _ hkmem with ⟨r, hr, hfk⟩
    exact ⟨r, hr, (groupByReleaseMin_entry_key l _ r hfk).1⟩
  · have hres : (sortByDate res).Pairwise
        (fun a b => a.1.release ≠ b.1.release) :=
      ((sortBy_perm _ res).pairwise_iff
        (fun h2 => fun e => h2 e.symm)).mpr hpw
    exact hres.sublist (List.take_sublist 2 (sortByDate res))

/-- Witness for C5 at the concrete dated set futBigW, whose deduplication
keeps the earlier X 2.0 row and the X 3.0 row. -/
theorem c5_release_dedup_witness :
    futW.Pairwise (fun a b => a.1.release ≠ b.1.release) :=
  (c5_release_dedup futBigW futW (by decide) (by rfl)).1

/-- C6: with a non-empty product and a non-empty release hint, a
case-insensitive release-column search that yields at least one record is
returned as is, bypassing the multi-column scan; when it yields none, the
generic multi-column product scan runs instead. -/
theorem c6_release_hint_priority (df : List Record) (p h : String)
    (hp : p ≠ "") (hh : h ≠ "") :
    (searchRelease df h ≠ [] → search_by_product df p h = searchRelease df h)
    ∧ (searchRelease df h = [] →
        search_by_product df p h = genericScan df p) := by
  constructor
  · intro hr
    simp [search_by_product, hp, hh, hr]
  · intro hr
    simp [search_by_product, hp, hh, hr]

/-- Witness for C6: the hint X 2.0 matches two rows of dfW and the engine
returns exactly the release-column matches. -/
theorem c6_release_hint_priority_witness :
    searchRelease dfW "X 2.0" ≠ []
    ∧ search_by_product dfW "ProdX" "X 2.0" = searchRelease dfW "X 2.0" :=
  ⟨by decide,
   (c6_release_hint_priority dfW "ProdX" "X 2.0" (by decide) (by decide)).1
     (by decide)⟩

/-- C8: escaping a term and running it through the regex layer always
compiles (no pattern parse error, whatever metacharacters the term holds)
and searches for the term as a literal, case-insensitive substring: the
composed semantics equals the plain literal test strContainsCI used
throughout the matching engine and the version filter. -/
theorem c8_escaped_literal_search (term hay : String) :
    containsRegexCI hay (reEscape term) = .ok (strContainsCI hay term) := by
  have hdata : (reEscape term).data
      = term.data.foldr
          (fun c acc => if c ∈ reSpecial then '\\' :: c :: acc else c :: acc)
          [] := rfl
  unfold containsRegexCI strContainsCI
  rw [hdata, parseRx_escape]
  exact congrArg Except.ok (rxSearch_lit term.data hay.data)

/-- C7: in future-only mode, every record of every resolved product group
of the report has a present GA date strictly after today, and so does every
record of the closest-two selection shown in the report body: records with
GA date on or before today never reach it. -/
theorem c7_future_filter (items : List SearchItem) (df : List Record)
    (vm : List (String × String)) (today : Nat) (rep : Report)
    (p : String) (ops : List String) (fut : List (Record × Option Nat))
    (hrep : format_results_by_product items df vm false today = .ok rep)
    (hmem : (p, ops, fut) ∈ rep.productsWith) :
    (∀ rd ∈ fut, isFutureDate today rd.2 = true)
    ∧ ∀ rd ∈ closestTwo fut, isFutureDate today rd.2 = true := by
  simp only [format_results_by_product] at hrep
  cases hfold : foldGroups df vm false today emptyAgg (productGroups items) with
  | error e =>
    simp only [hfold] at hrep
    exact absurd hrep (by simp)
  | ok agg =>
    simp only [hfold] at hrep
    have hrepeq := Except.ok.inj hrep
    have hpwith : rep.productsWith = agg.productsWith := by
      rw [← hrepeq]
    rw [hpwith] at hmem
    rcases foldGroups_with_mem df vm false today _ _ _ hfold _ hmem with
      h0 | ⟨g, _hg, fut2, hpg, _hne, hx⟩
    · simp [emptyAgg] at h0
    · have hfuteq : fut = fut2 := congrArg (fun z => z.2.2) hx
      subst hfuteq
      have hfut := processGroup_future df vm today g.1 g.2 fut hpg
      exact ⟨hfut, fun rd hrd => hfut rd (closestTwo_subset fut rd hrd)⟩

/-- Witness for C7 at the concrete run: the first shown record of the
resolved group ProdX carries the future date 2030-01-05. -/
theorem c7_future_filter_witness :
    isFutureDate 20251012 ((rec2, some 20300105) : Record × Option Nat).2
      = true :=
  (c7_future_filter itemsW dfW [] 20251012 repW "ProdX" ["opA", "opB"] futW
    rfl (by decide)).1 (rec2, some 20300105) (by decide)

/-- C9: each search item whose product field is empty contributes its
operator to the unmapped bucket, exactly the operators of the empty-product
items in input order; and the bucket is a suffix of the without-answer
tally, so each such operator is also counted there. -/
theorem c9_unmapped_bucket (items : List SearchItem) (df : List Record)
    (vm : List (String × String)) (showAll : Bool) (today : Nat)
    (rep : Report)
    (hrep : format_results_by_product items df vm showAll today = .ok rep) :
    rep.unmapped
      = (items.filter (fun it => decide (it.product = ""))).map
          SearchItem.operator
    ∧ List.IsSuffix rep.unmapped rep.opsWithout := by
  simp only [format_results_by_product] at hrep
  cases hfold : foldGroups df vm showAll today emptyAgg (productGroups items) with
  | error e =>
    simp only [hfold] at hrep
    exact absurd hrep (by simp)
  | ok agg =>
    simp only [hfold] at hrep
    have hq := Except.ok.inj hrep
    constructor
    · rw [← hq]
      show (items.foldl
          (fun acc it => if it.product = "" then acc ++ [it.operator] else acc)
          [])
        = (items.filter (fun it => decide (it.product = ""))).map
            SearchItem.operator
      rw [unm_foldl]
      simp
    · rw [← hq]
      show List.IsSuffix
        (items.foldl
          (fun acc it => if it.product = "" then acc ++ [it.operator] else acc)
          [])
        (agg.opsWithout ++ items.foldl
          (fun acc it => if it.product = "" then acc ++ [it.operator] else acc)
          [])
      exact List.suffix_append _ _

/-- Witness for C9 at the concrete run: the unmapped bucket of repW is
exactly the operator of the one empty-product item. -/
theorem c9_unmapped_bucket_witness :
    repW.unmapped
      = (itemsW.filter (fun it => decide (it.product = ""))).map
          SearchItem.operator :=
  (c9_unmapped_bucket itemsW dfW [] false 20251012 repW rfl).1

/-- C10: every search item is tallied exactly once across the two operator
tallies: the with-answer and without-answer operator lists together count
as many entries as there are normalized search items, which is the total
the report prints as operators analyzed. -/
theorem c10_operator_tally (items : List SearchItem) (df : List Record)
    (vm : List (String × String)) (showAll : Bool) (today : Nat)
    (rep : Report)
    (hrep : format_results_by_product items df vm showAll today = .ok rep) :
    rep.opsWith.length + rep.opsWithout.length = items.length := by
  simp only [format_results_by_product] at hrep
  cases hfold : foldGroups df vm showAll today emptyAgg (productGroups items) with
  | error e =>
    simp only [hfold] at hrep
    exact absurd hrep (by simp)
  | ok agg =>
    simp only [hfold] at hrep
    have hq := Except.ok.inj hrep
    have hcount := foldGroups_count df vm showAll today _ _ _ hfold
    have hsum : ((productGroups items).map (fun g => g.2.length)).sum
        = (items.filter (fun it => !(decide (it.product = "")))).length := by
      have hs := sizes_foldl_addItem items []
      simpa [productGroups] using hs
    have hunm : (items.foldl
          (fun acc it => if it.product = "" then acc ++ [it.operator] else acc)
          []).length
        = (items.filter (fun it => decide (it.product = ""))).length := by
      rw [unm_foldl]
      simp
    have hpart := length_filter_partition
      (fun it => decide (it.product = "")) items
    simp only [] at hpart
    rw [← hq]
    show agg.opsWith.length
        + (agg.opsWithout ++ items.foldl
            (fun acc it =>
              if it.product = "" then acc ++ [it.operator] else acc)
            []).length
      = items.length
    rw [List.length_append]
    simp only [emptyAgg, List.length_nil] at hcount
    omega

/-- Witness for C10 at the concrete run: two operators with answers, two
without, four items. -/
theorem c10_operator_tally_witness :
    repW.opsWith.length + repW.opsWithout.length = itemsW.length :=
  c10_operator_tally itemsW dfW [] false 20251012 repW rfl

end SearchReleases
